import Mathlib

/-!
Verification of the `ferrum` demo's reference algorithms and benchmark
harness (`demo.py`), shallowly embedded in Lean.

Python integers are modelled as `ℤ` (arbitrary precision), Python lists as
`List`, Python strings as `List Char`.  The sieve's loop bound
`int(limit**0.5)` is modelled as `Nat.sqrt`: for a non-negative integer in
double-precision range the truncated floating-point square root coincides
with the integer square root, and the sieve's output is unchanged by any
bound `≥ Nat.sqrt limit` that stays `≤ limit`.
-/

namespace Ferrum

/-- Embedding of `python_sum_large_vector(numbers)`: `return sum(numbers)` (demo.py:23-25). -/
def python_sum_large_vector (numbers : List ℤ) : ℤ := numbers.sum

/-- Embedding of `python_fibonacci(n)`: `if n <= 1: return n; return f(n-1) + f(n-2)`
(demo.py:28-32), over Python ints. -/
def python_fibonacci (n : ℤ) : ℤ :=
  if _h : n ≤ 1 then n
  else python_fibonacci (n - 1) + python_fibonacci (n - 2)
termination_by n.toNat
decreasing_by
  all_goals omega

/-- the indices struck by the inner loop `for j in range(i*i, limit + 1, i)`
(demo.py:45). -/
def strikeList (limit i : ℕ) : List ℕ :=
  List.range' (i * i) (if i * i ≤ limit then (limit - i * i) / i + 1 else 0) i

/-- one iteration of the outer loop `for i in range(2, int(limit**0.5) + 1)`:
`if sieve[i]: for j in range(i*i, limit+1, i): sieve[j] = False` (demo.py:43-46). -/
def sieveStep (limit : ℕ) (s : List Bool) (i : ℕ) : List Bool :=
  if s.getD i false then (strikeList limit i).foldl (fun t j => t.set j false) s else s

/-- Embedding of `sieve = [True] * (limit + 1); sieve[0] = sieve[1] = False` (demo.py:40-41). -/
def initSieve (limit : ℕ) : List Bool :=
  ((List.replicate (limit + 1) true).set 0 false).set 1 false

/-- the sieve state after the outer loop has processed every `i` in
`range(2, k + 1)`, i.e. `2 ≤ i ≤ k`. -/
def sieveAfter (L k : ℕ) : List Bool :=
  (List.range' 2 (k - 1)).foldl (sieveStep L) (initSieve L)

/-- Embedding of `python_find_primes(limit)` (demo.py:35-48): sieve of Eratosthenes.
The loop bound `int(limit**0.5)` is modelled as `Nat.sqrt` (see header). -/
def python_find_primes (limit : ℤ) : List ℤ :=
  if limit < 2 then []
  else
    let L := limit.toNat
    let final := (List.range' 2 (Nat.sqrt L - 1)).foldl (sieveStep L) (initSieve L)
    ((List.range (L + 1)).filter fun i => final.getD i false).map fun i : ℕ => (i : ℤ)

/-- the line-break characters of Python's universal-newline `str.splitlines`. -/
def pythonLineBreaks : List Char :=
  ['\n', '\r', '\x0b', '\x0c', '\x1c', '\x1d', '\x1e', '\x85', '\u2028', '\u2029']

def isLineBreak (c : Char) : Bool := pythonLineBreaks.contains c

/-- the whitespace characters recognised by Python's `str.split()`. -/
def pythonWhitespace : List Char :=
  [' ', '\t', '\n', '\r', '\x0b', '\x0c', '\x1c', '\x1d', '\x1e', '\x1f', '\x85',
   '\xa0', '\u1680', '\u2000', '\u2001', '\u2002', '\u2003', '\u2004', '\u2005',
   '\u2006', '\u2007', '\u2008', '\u2009', '\u200a', '\u2028', '\u2029', '\u202f',
   '\u205f', '\u3000']

def isPySpace (c : Char) : Bool := pythonWhitespace.contains c

/-- Embedding of Python `str.splitlines`: accumulate the current line in `acc` (reversed); a break
character ends a line, `\r\n` counting as a single break; a final unterminated
line is emitted, a trailing break adds no empty line. -/
def splitlinesGo (acc : List Char) : List Char → List (List Char)
  | [] => if acc.isEmpty then [] else [acc.reverse]
  | c :: rest =>
    if isLineBreak c then
      if c = '\r' ∧ rest.head? = some '\n' then
        acc.reverse :: splitlinesGo [] rest.tail
      else
        acc.reverse :: splitlinesGo [] rest
    else splitlinesGo (c :: acc) rest
termination_by l => l.length
decreasing_by
  all_goals simp [List.length_tail]
  all_goals omega

def splitlines (s : List Char) : List (List Char) := splitlinesGo [] s

/-- Embedding of Python `str.split()` (no separator): maximal runs of non-whitespace characters. -/
def splitWsGo (acc : List Char) : List Char → List (List Char)
  | [] => if acc.isEmpty then [] else [acc.reverse]
  | c :: rest =>
    if isPySpace c then
      if acc.isEmpty then splitWsGo [] rest
      else acc.reverse :: splitWsGo [] rest
    else splitWsGo (c :: acc) rest

def pySplit (s : List Char) : List (List Char) := splitWsGo [] s

/-- Embedding of `python_analyze_text(text)` (demo.py:51-56):
`(len(text.splitlines()), len(text.split()), len(text))`. -/
def python_analyze_text (text : List Char) : ℕ × ℕ × ℕ :=
  ((splitlines text).length, (pySplit text).length, text.length)

/-- possible outcomes of a call to `benchmark_function` (demo.py:9-20):
a normal return `(result, avg_time)`, an uncaught exception from the
benchmarked callable, Python's `ZeroDivisionError` from `(end - start) / 0`,
or `NameError` from reading the loop variable `result` when it was never
bound. -/
inductive BenchOutcome (ε σ β : Type) : Type where
  | ok : σ → β → ℚ → BenchOutcome ε σ β
  | raised : ε → BenchOutcome ε σ β
  | zeroDivisionError : BenchOutcome ε σ β
  | nameError : BenchOutcome ε σ β
deriving DecidableEq

/-- the loop `for _ in range(iterations): result = func(*args)` (demo.py:13-14).
The callable is modelled as a state transformer `σ → Except ε (σ × β)` so that
the number and order of invocations, and any raised error, are observable; the
`Option β` carries the binding of `result` (`none` while unbound). -/
def benchLoop (func : σ → Except ε (σ × β)) : ℕ → σ → Option β → Except ε (σ × Option β)
  | 0, s, r => .ok (s, r)
  | k + 1, s, _ =>
    match func s with
    | .error e => .error e
    | .ok (s', v) => benchLoop func k s' (some v)

/-- Embedding of `benchmark_function(func, *args, iterations=...)` (demo.py:9-20).
`startT`/`endT` model the two `time.perf_counter()` readings; the bound
arguments `*args` are part of `func`.  Python evaluates
`avg_time = (end - start) / iterations` before `return result, avg_time`, so
`iterations = 0` raises `ZeroDivisionError` (float / 0) before the unbound
`result` would raise `NameError`.  The `print` on demo.py:19 is presentation
only and has no modelled effect. -/
def benchmark_function (func : σ → Except ε (σ × β)) (iterations : ℕ)
    (startT endT : ℚ) (s : σ) : BenchOutcome ε σ β :=
  match benchLoop func iterations s none with
  | .error e => .raised e
  | .ok (s', r) =>
    if iterations = 0 then .zeroDivisionError
    else
      match r with
      | none => .nameError
      | some v => .ok s' v ((endT - startT) / iterations)

/-- lift a pure (never-raising) callable to the fallible interface. -/
def pureCall (func : σ → σ × β) : σ → Except Empty (σ × β) :=
  fun s => .ok (func s)

/-- spec-level count of maximal whitespace-delimited non-empty tokens,
scanning left to right: a token starts exactly at a non-whitespace character
that is at the start of the text or preceded by whitespace. -/
def countTokensFrom (prevIsSpace : Bool) : List Char → ℕ
  | [] => 0
  | c :: rest =>
    (if prevIsSpace && !isPySpace c then 1 else 0) + countTokensFrom (isPySpace c) rest

def countTokens (s : List Char) : ℕ := countTokensFrom true s

/-- spec-level count of line-break boundaries, `\r\n` counting as a single
boundary. -/
def countBreaks : List Char → ℕ
  | [] => 0
  | c :: rest =>
    if c = '\r' ∧ rest.head? = some '\n' then 1 + countBreaks rest.tail
    else (if isLineBreak c then 1 else 0) + countBreaks rest
termination_by l => l.length
decreasing_by
  all_goals simp [List.length_tail]
  all_goals omega

/-- does the text end with a line-break character? -/
def endsWithBreak : List Char → Bool
  | [] => false
  | [c] => isLineBreak c
  | _ :: rest => endsWithBreak rest

/-- spec-side predicate for the sieve invariant: after the outer loop has
processed every `i ≤ k`, index `j` has been struck out iff `j ≤ 1` or some
prime `p ≤ k` divides `j` with `p * p ≤ j`. -/
def StruckBy (k j : ℕ) : Prop :=
  j ≤ 1 ∨ ∃ p ≤ k, p.Prime ∧ p ∣ j ∧ p * p ≤ j

/-! ### Fibonacci lemmas -/

lemma python_fibonacci_of_le_one {n : ℤ} (h : n ≤ 1) : python_fibonacci n = n := by
  rw [python_fibonacci]
  exact dif_pos h

lemma python_fibonacci_step {n : ℤ} (h : 2 ≤ n) :
    python_fibonacci n = python_fibonacci (n - 1) + python_fibonacci (n - 2) := by
  rw [python_fibonacci]
  exact dif_neg (by omega)

lemma python_fibonacci_nat (n : ℕ) : python_fibonacci n = Nat.fib n := by
  induction n using Nat.strong_induction_on with
  | _ n ih =>
    match n with
    | 0 => simpa using python_fibonacci_of_le_one (by norm_num)
    | 1 => simpa using python_fibonacci_of_le_one (by norm_num)
    | m + 2 =>
      rw [python_fibonacci_step (by push_cast; omega)]
      have h1 : ((m + 2 : ℕ) : ℤ) - 1 = ((m + 1 : ℕ) : ℤ) := by push_cast; ring
      have h2 : ((m + 2 : ℕ) : ℤ) - 2 = ((m : ℕ) : ℤ) := by push_cast; ring
      rw [h1, h2, ih (m + 1) (by omega), ih m (by omega), Nat.fib_add_two]
      push_cast
      ring

/-! ### Claim theorems: fibonacci -/

/-- Claim C2: `python_fibonacci` satisfies `fibonacci(0) = 0`, `fibonacci(1) = 1`,
`fibonacci(n) = fibonacci(n-1) + fibonacci(n-2)` for every `n ≥ 2`, and
`fibonacci(10) = 55`. -/
theorem python_fibonacci_recurrence :
    python_fibonacci 0 = 0 ∧ python_fibonacci 1 = 1 ∧
    (∀ n : ℤ, 2 ≤ n →
      python_fibonacci n = python_fibonacci (n - 1) + python_fibonacci (n - 2)) ∧
    python_fibonacci 10 = 55 := by
  refine ⟨python_fibonacci_of_le_one (by norm_num), python_fibonacci_of_le_one le_rfl,
    fun n h => python_fibonacci_step h, ?_⟩
  have h := python_fibonacci_nat 10
  norm_num at h
  exact h

/-- witness for C2: the recurrence at the concrete input `n = 2`. -/
theorem python_fibonacci_recurrence_witness :
    2 ≤ (2 : ℤ) ∧
    python_fibonacci 2 = python_fibonacci (2 - 1) + python_fibonacci (2 - 2) :=
  ⟨le_rfl, python_fibonacci_recurrence.2.2.1 2 le_rfl⟩

/-- Claim C10: for every `n ≤ 1`, including every negative `n`, `python_fibonacci`
returns `n` itself unchanged; negative inputs are neither rejected nor mapped
to 0. -/
theorem python_fibonacci_identity_on_small (n : ℤ) (h : n ≤ 1) :
    python_fibonacci n = n := by
  rw [python_fibonacci]
  exact dif_pos h

/-- witness for C10: `python_fibonacci (-5) = -5`. -/
theorem python_fibonacci_identity_on_small_witness :
    (-5 : ℤ) ≤ 1 ∧ python_fibonacci (-5) = -5 :=
  ⟨by norm_num, python_fibonacci_identity_on_small (-5) (by norm_num)⟩

/-- Claim C6, counterexample: the claim says negative inputs fail with an
InvalidArgument-style error, but both functions return ordinary values at
explicit negative inputs: `python_fibonacci (-5) = -5` and
`python_find_primes (-3) = []` (the special-cased small-value results the
claim says should not be returned silently). -/
theorem negative_inputs_not_rejected_counterexample :
    python_fibonacci (-5) = -5 ∧ python_find_primes (-3) = [] := by
  constructor
  · rw [python_fibonacci]
    exact dif_pos (by norm_num)
  · decide

/-- Claim C6, amended: for every negative integer input, `python_fibonacci n`
returns `n` itself and `python_find_primes limit` returns the empty sequence;
no error is raised. -/
theorem negative_inputs_special_cased :
    (∀ n : ℤ, n < 0 → python_fibonacci n = n) ∧
    (∀ limit : ℤ, limit < 0 → python_find_primes limit = []) := by
  constructor
  · intro n hn
    rw [python_fibonacci]
    exact dif_pos (by omega)
  · intro limit hl
    rw [python_find_primes]
    exact if_pos (by omega)

/-- witness for amended C6 at the concrete inputs `-5` and `-3`. -/
theorem negative_inputs_special_cased_witness :
    python_fibonacci (-5) = -5 ∧ python_find_primes (-3) = [] :=
  ⟨negative_inputs_special_cased.1 (-5) (by norm_num),
   negative_inputs_special_cased.2 (-3) (by norm_num)⟩

/-! ### Summation lemmas -/

lemma sum_range_cast (n : ℕ) :
    2 * ((List.range n).map fun i : ℕ => (i : ℤ)).sum = n * (n - 1) := by
  induction n with
  | zero => simp
  | succ m ih =>
    rw [List.range_succ, List.map_append, List.sum_append]
    push_cast
    push_cast at ih
    simp only [List.map_cons, List.map_nil, List.sum_cons, List.sum_nil]
    linear_combination ih

/-- Claim C5: summation is order-invariant (`sum_sequence(S) = sum_sequence(reverse S)`),
the empty sum is 0, and the sum of `range(0, 1000000)` is 499999500000. -/
theorem python_sum_large_vector_properties :
    (∀ S : List ℤ, python_sum_large_vector S = python_sum_large_vector S.reverse) ∧
    python_sum_large_vector [] = 0 ∧
    python_sum_large_vector ((List.range 1000000).map fun i : ℕ => (i : ℤ)) = 499999500000 := by
  refine ⟨fun S => (List.sum_reverse S).symm, rfl, ?_⟩
  have h := sum_range_cast 1000000
  unfold python_sum_large_vector
  push_cast at h
  linarith

/-- Claim C8: each embedded reference algorithm is a pure function of its input, so
two calls with identical input produce identical output (the source functions
read no shared mutable state). -/
theorem reference_algorithms_deterministic :
    (∀ S : List ℤ, python_sum_large_vector S = python_sum_large_vector S) ∧
    (∀ n : ℤ, python_fibonacci n = python_fibonacci n) ∧
    (∀ limit : ℤ, python_find_primes limit = python_find_primes limit) ∧
    (∀ t : List Char, python_analyze_text t = python_analyze_text t) :=
  ⟨fun _ => rfl, fun _ => rfl, fun _ => rfl, fun _ => rfl⟩

/-! ### Benchmark harness lemmas -/

lemma benchLoop_pure {σ β : Type} (func : σ → σ × β) (k : ℕ) :
    ∀ (s : σ) (r : Option β),
      benchLoop (pureCall func) (k + 1) s r
        = .ok ((fun s => (func s).1)^[k + 1] s,
               some ((func ((fun s => (func s).1)^[k] s)).2)) := by
  induction k with
  | zero =>
    intro s r
    simp [benchLoop, pureCall]
  | succ m ih =>
    intro s r
    rw [show m + 1 + 1 = (m + 1) + 1 from rfl, benchLoop]
    simp only [pureCall]
    rw [ih (func s).1 (some (func s).2)]
    rw [← Function.iterate_succ_apply (fun s => (func s).1) (m + 1) s,
        ← Function.iterate_succ_apply (fun s => (func s).1) m s]

lemma benchmark_function_pure {σ β : Type} (func : σ → σ × β) (k : ℕ) (hk : 1 ≤ k)
    (startT endT : ℚ) (s : σ) :
    benchmark_function (pureCall func) k startT endT s
      = .ok ((fun s => (func s).1)^[k] s)
            ((func ((fun s => (func s).1)^[k - 1] s)).2)
            ((endT - startT) / k) := by
  obtain ⟨m, rfl⟩ : ∃ m, k = m + 1 := ⟨k - 1, by omega⟩
  rw [benchmark_function, benchLoop_pure func m s none]
  simp

/-! ### Claim theorems: benchmark harness -/

/-- Claim C3: for a pure callable invoked with `iterations = k ≥ 1` and monotone
clock readings, `benchmark_function` performs exactly `k` sequential
invocations (the final state is the `k`-fold iterate of the call's state
transformer), returns the last invocation's value as its first component and
a non-negative average as its second; with `k = 1` the returned value is
exactly one invocation's result. -/
theorem benchmark_function_correct {σ β : Type} (func : σ → σ × β) (k : ℕ) (hk : 1 ≤ k)
    (startT endT : ℚ) (hT : startT ≤ endT) (s : σ) :
    benchmark_function (pureCall func) k startT endT s
        = .ok ((fun s => (func s).1)^[k] s)
              ((func ((fun s => (func s).1)^[k - 1] s)).2)
              ((endT - startT) / k)
      ∧ 0 ≤ (endT - startT) / (k : ℚ)
      ∧ (k = 1 →
          benchmark_function (pureCall func) k startT endT s
            = .ok ((func s).1) ((func s).2) ((endT - startT) / 1)) := by
  refine ⟨benchmark_function_pure func k hk startT endT s,
    div_nonneg (by linarith) (by positivity), ?_⟩
  rintro rfl
  simpa using benchmark_function_pure func 1 le_rfl startT endT s

/-- witness for C3 at a concrete call-counting callable, `k = 1`,
readings 0 and 1. -/
theorem benchmark_function_correct_witness :
    benchmark_function (pureCall fun n : ℕ => (n + 1, n * 2)) 1 0 1 0
      = .ok 1 0 (1 : ℚ) := by
  have h := (benchmark_function_correct (fun n : ℕ => (n + 1, n * 2)) 1 le_rfl
    0 1 (by norm_num) 0).1
  simpa using h

/-- Claim C7: if the benchmarked callable raises, `benchmark_function` does not
catch it: the very same error surfaces as the outcome, with no retry. -/
theorem benchmark_function_propagates {σ β ε : Type} (func : σ → Except ε (σ × β))
    (k : ℕ) (hk : 1 ≤ k) (startT endT : ℚ) (s : σ) (e : ε)
    (hf : func s = .error e) :
    benchmark_function func k startT endT s = .raised e := by
  obtain ⟨m, rfl⟩ : ∃ m, k = m + 1 := ⟨k - 1, by omega⟩
  rw [benchmark_function, benchLoop, hf]

/-- witness for C7: a callable that always raises error 7. -/
theorem benchmark_function_propagates_witness :
    benchmark_function (fun _ : ℕ => (Except.error 7 : Except ℕ (ℕ × ℕ))) 1 0 1 0
      = .raised 7 :=
  benchmark_function_propagates _ 1 le_rfl 0 1 0 7 rfl

/-- Claim C9: with `iterations ≥ 1` the harness neither divides by zero nor reads an
unbound `result` (the outcome is a normal return); with `iterations = 0` the
call does not return a value pair — it raises `ZeroDivisionError` at the
average computation. -/
theorem benchmark_function_iterations_guard {σ β : Type} (func : σ → σ × β)
    (k : ℕ) (startT endT : ℚ) (s : σ) :
    (1 ≤ k →
      benchmark_function (pureCall func) k startT endT s ≠ .zeroDivisionError ∧
      benchmark_function (pureCall func) k startT endT s ≠ .nameError) ∧
    benchmark_function (pureCall func) 0 startT endT s = .zeroDivisionError := by
  refine ⟨fun hk => ?_, rfl⟩
  rw [benchmark_function_pure func k hk startT endT s]
  exact ⟨fun h => BenchOutcome.noConfusion h, fun h => BenchOutcome.noConfusion h⟩

/-- witness for C9 at `k = 2` and `k = 0`. -/
theorem benchmark_function_iterations_guard_witness :
    benchmark_function (pureCall fun n : ℕ => (n + 1, n * 2)) 2 0 1 0
        ≠ .zeroDivisionError ∧
    benchmark_function (pureCall fun n : ℕ => (n + 1, n * 2)) 0 0 1 0
        = .zeroDivisionError :=
  ⟨((benchmark_function_iterations_guard (fun n : ℕ => (n + 1, n * 2)) 2 0 1 0).1
      (by norm_num)).1,
   (benchmark_function_iterations_guard (fun n : ℕ => (n + 1, n * 2)) 0 0 1 0).2⟩

/-! ### Text analysis lemmas -/

lemma splitWsGo_length (s : List Char) :
    ∀ acc : List Char, (splitWsGo acc s).length
      = countTokensFrom acc.isEmpty s + (if acc.isEmpty then 0 else 1) := by
  induction s with
  | nil =>
    intro acc
    cases acc <;> simp [splitWsGo, countTokensFrom]
  | cons c rest ih =>
    intro acc
    by_cases hc : isPySpace c
    · cases acc <;> simp [splitWsGo, countTokensFrom, hc, ih] <;> omega
    · cases acc <;> simp [splitWsGo, countTokensFrom, hc, ih] <;> omega

lemma pySplit_length (s : List Char) : (pySplit s).length = countTokens s := by
  simpa [pySplit, countTokens] using splitWsGo_length s []

lemma endsWithBreak_cons (c : Char) {rest : List Char} (h : rest ≠ []) :
    endsWithBreak (c :: rest) = endsWithBreak rest := by
  cases rest with
  | nil => exact absurd rfl h
  | cons d r => rfl

lemma splitlinesGo_length (n : ℕ) :
    ∀ s : List Char, s.length ≤ n → ∀ acc : List Char,
      (splitlinesGo acc s).length
        = countBreaks s +
          (if s.isEmpty then (if acc.isEmpty then 0 else 1)
           else if endsWithBreak s then 0 else 1) := by
  induction n with
  | zero =>
    intro s hs acc
    have hs0 : s = [] := List.length_eq_zero.mp (by omega)
    subst hs0
    cases acc <;> simp [splitlinesGo, countBreaks]
  | succ m ih =>
    intro s hs acc
    match s with
    | [] => cases acc <;> simp [splitlinesGo, countBreaks]
    | c :: rest =>
      by_cases hlb : isLineBreak c
      · by_cases hcr : c = '\r' ∧ rest.head? = some '\n'
        · obtain ⟨hc, hhd⟩ := hcr
          subst hc
          obtain ⟨r, rfl⟩ : ∃ r, rest = '\n' :: r := by
            cases rest with
            | nil => simp at hhd
            | cons d r =>
              simp at hhd
              exact ⟨r, by rw [hhd]⟩
          rw [splitlinesGo, if_pos hlb, if_pos ⟨rfl, hhd⟩, countBreaks,
            if_pos ⟨rfl, hhd⟩]
          simp only [List.length_cons, List.tail_cons]
          rw [ih r (by simp at hs; omega) []]
          cases r with
          | nil => simp [countBreaks, endsWithBreak, (by decide : isLineBreak '\n' = true)]
          | cons e r' =>
            rw [endsWithBreak_cons '\r' (List.cons_ne_nil _ _),
              endsWithBreak_cons '\n' (List.cons_ne_nil _ _)]
            simp
            omega
        · rw [splitlinesGo, if_pos hlb, if_neg hcr, countBreaks, if_neg hcr,
            if_pos hlb]
          simp only [List.length_cons]
          rw [ih rest (by simp at hs; omega) []]
          cases rest with
          | nil => simp [countBreaks, endsWithBreak, hlb]
          | cons d r =>
            rw [endsWithBreak_cons c (List.cons_ne_nil _ _)]
            simp
            omega
      · have hcr : ¬(c = '\r' ∧ rest.head? = some '\n') := by
          rintro ⟨rfl, -⟩
          exact hlb (by decide)
        rw [splitlinesGo, if_neg hlb, countBreaks, if_neg hcr, if_neg hlb]
        rw [ih rest (by simp at hs; omega) (c :: acc)]
        cases rest with
        | nil => simp [countBreaks, endsWithBreak, hlb]
        | cons d r =>
          rw [endsWithBreak_cons c (List.cons_ne_nil _ _)]
          simp

lemma splitlines_length (s : List Char) :
    (splitlines s).length
      = countBreaks s +
        (if s.isEmpty then 0 else if endsWithBreak s then 0 else 1) := by
  rw [splitlines, splitlinesGo_length s.length s le_rfl []]
  cases s <;> simp

/-- Claim C4: `python_analyze_text` returns the 3-tuple
`(line_count, word_count, char_count)` in that fixed order, where
`char_count` is the total character count, `word_count` is the number of
maximal whitespace-delimited non-empty tokens (characterised independently by
`countTokens`), and `line_count` counts segments under universal-newline
splitting, i.e. the number of line-break boundaries plus one for a final
unterminated line — so a trailing newline contributes no extra empty segment;
in particular `analyze_text "a b\nc\n" = (2, 3, 6)`. -/
theorem python_analyze_text_correct :
    (∀ t : List Char, python_analyze_text t
        = ((splitlines t).length, countTokens t, t.length)) ∧
    (∀ t : List Char, (splitlines t).length
        = countBreaks t +
          (if t.isEmpty then 0 else if endsWithBreak t then 0 else 1)) ∧
    python_analyze_text ['a', ' ', 'b', '\n', 'c', '\n'] = (2, 3, 6) := by
  refine ⟨fun t => ?_, splitlines_length, ?_⟩
  · rw [python_analyze_text, pySplit_length]
  · rw [python_analyze_text]
    norm_num [splitlines, splitlinesGo, pySplit, splitWsGo, isLineBreak, isPySpace,
      pythonLineBreaks, pythonWhitespace]
    decide

/-! ### Sieve lemmas -/

lemma getD_set_false (t : List Bool) (a j : ℕ) :
    (t.set a false).getD j false = (t.getD j false && !decide (j = a)) := by
  by_cases h : j = a
  · subst h
    rw [List.getD_eq_getElem?_getD, List.getElem?_set_self']
    cases ht : t[j]? <;> simp [ht]
  · rw [List.getD_eq_getElem?_getD, List.getElem?_set_ne (fun hh => h hh.symm),
      List.getD_eq_getElem?_getD]
    simp [h]

lemma getD_foldl_set_false (js : List ℕ) :
    ∀ (t : List Bool) (j : ℕ),
      (js.foldl (fun t j' => t.set j' false) t).getD j false
        = (t.getD j false && !decide (j ∈ js)) := by
  induction js with
  | nil =>
    intro t j
    simp
  | cons a as ih =>
    intro t j
    rw [List.foldl_cons, ih, getD_set_false]
    by_cases h : j = a <;> by_cases h2 : j ∈ as <;> simp [h, h2]

lemma mem_strikeList {L i j : ℕ} (hi : 1 ≤ i) :
    j ∈ strikeList L i ↔ i ∣ j ∧ i * i ≤ j ∧ j ≤ L := by
  rw [strikeList]
  by_cases hle : i * i ≤ L
  · rw [if_pos hle, List.mem_range']
    constructor
    · rintro ⟨t, ht, rfl⟩
      refine ⟨⟨i + t, by ring⟩, by omega, ?_⟩
      have h1 : t ≤ (L - i * i) / i := by omega
      have h2 : i * t ≤ i * ((L - i * i) / i) := Nat.mul_le_mul_left _ h1
      have h3 : i * ((L - i * i) / i) ≤ L - i * i := by
        rw [Nat.mul_comm]
        exact Nat.div_mul_le_self _ _
      omega
    · rintro ⟨⟨m, rfl⟩, hsq, hL2⟩
      have him : i ≤ m := Nat.le_of_mul_le_mul_left hsq (by omega)
      refine ⟨m - i, ?_, by
        have : i * (m - i) = i * m - i * i := by
          rw [Nat.mul_sub]
        omega⟩
      have hdiv : m - i ≤ (L - i * i) / i := by
        rw [Nat.le_div_iff_mul_le (by omega)]
        have : (m - i) * i = i * m - i * i := by
          rw [Nat.sub_mul, Nat.mul_comm]
        omega
      omega
  · rw [if_neg hle, List.mem_range']
    constructor
    · rintro ⟨t, ht, -⟩
      omega
    · rintro ⟨-, hsq, hL2⟩
      omega

lemma initSieve_getD (L j : ℕ) :
    (initSieve L).getD j false = (decide (2 ≤ j) && decide (j ≤ L)) := by
  rw [initSieve, getD_set_false, getD_set_false, List.getD_eq_getElem?_getD,
    List.getElem?_replicate]
  by_cases h0 : j = 0 <;> by_cases h1 : j = 1 <;> by_cases hL : j < L + 1 <;>
    simp [h0, h1, hL] <;> omega

lemma struckBy_one_iff (j : ℕ) : StruckBy 1 j ↔ j ≤ 1 := by
  constructor
  · rintro (h | ⟨p, hpk, hpp, -, -⟩)
    · exact h
    · have := hpp.two_le
      omega
  · exact Or.inl

lemma struckBy_succ_iff (k j : ℕ) :
    StruckBy (k + 1) j
      ↔ StruckBy k j ∨ ((k + 1).Prime ∧ (k + 1) ∣ j ∧ (k + 1) * (k + 1) ≤ j) := by
  constructor
  · rintro (h | ⟨p, hpk, hpp, hpd, hps⟩)
    · exact Or.inl (Or.inl h)
    · rcases Nat.lt_or_ge p (k + 1) with h | h
      · exact Or.inl (Or.inr ⟨p, by omega, hpp, hpd, hps⟩)
      · have hp : p = k + 1 := by omega
        subst hp
        exact Or.inr ⟨hpp, hpd, hps⟩
  · rintro ((h | ⟨p, hpk, hrest⟩) | ⟨hp, hd, hs⟩)
    · exact Or.inl h
    · exact Or.inr ⟨p, by omega, hrest⟩
    · exact Or.inr ⟨k + 1, le_rfl, hp, hd, hs⟩

lemma sieve_invariant (L : ℕ) (hL : 2 ≤ L) :
    ∀ k, 1 ≤ k → k ≤ Nat.sqrt L → ∀ j,
      ((sieveAfter L k).getD j false = true ↔ (j ≤ L ∧ ¬ StruckBy k j)) := by
  intro k
  induction k with
  | zero =>
    intro h
    omega
  | succ k ih =>
    intro h1 hsq j
    rcases Nat.eq_or_lt_of_le h1 with h1' | h1'
    · -- base case k + 1 = 1: no outer iteration has run yet
      have hk0 : k = 0 := by omega
      subst hk0
      rw [show sieveAfter L 1 = initSieve L from rfl, initSieve_getD, struckBy_one_iff]
      simp only [Bool.and_eq_true, decide_eq_true_eq]
      omega
    · have hk1 : 1 ≤ k := by omega
      have hksq : k ≤ Nat.sqrt L := by omega
      have IH := ih hk1 hksq
      have hk1L : k + 1 ≤ L := le_trans hsq (Nat.sqrt_le_self L)
      have hstep : sieveAfter L (k + 1) = sieveStep L (sieveAfter L k) (k + 1) := by
        rw [sieveAfter, sieveAfter, show k + 1 - 1 = (k - 1) + 1 by omega,
          List.range'_concat, List.foldl_append]
        simp only [List.foldl_cons, List.foldl_nil]
        congr 1
        omega
      rw [hstep, sieveStep]
      by_cases hcur : (sieveAfter L k).getD (k + 1) false = true
      · rw [if_pos hcur]
        have hns : ¬ StruckBy k (k + 1) := ((IH (k + 1)).mp hcur).2
        have hprime : (k + 1).Prime := by
          by_contra hnp
          have hq := Nat.minFac_prime (show k + 1 ≠ 1 by omega)
          have hqd := Nat.minFac_dvd (k + 1)
          have hqs : (k + 1).minFac ^ 2 ≤ k + 1 := Nat.minFac_sq_le_self (by omega) hnp
          have hq2 := hq.two_le
          have hqk : (k + 1).minFac ≤ k := by nlinarith
          exact hns (Or.inr ⟨(k + 1).minFac, hqk, hq, hqd, by nlinarith⟩)
        rw [getD_foldl_set_false, Bool.and_eq_true, Bool.not_eq_true',
          decide_eq_false_iff_not]
        constructor
        · rintro ⟨hgd, hnm⟩
          obtain ⟨hjL, hnsj⟩ := (IH j).mp hgd
          refine ⟨hjL, ?_⟩
          rw [struckBy_succ_iff]
          rintro (h | ⟨-, hdvd, hsq'⟩)
          · exact hnsj h
          · exact hnm ((mem_strikeList (by omega)).mpr ⟨hdvd, hsq', hjL⟩)
        · rintro ⟨hjL, hns'⟩
          rw [struckBy_succ_iff] at hns'
          refine ⟨(IH j).mpr ⟨hjL, fun h => hns' (Or.inl h)⟩, fun hm => ?_⟩
          obtain ⟨hdvd, hsq', -⟩ := (mem_strikeList (by omega)).mp hm
          exact hns' (Or.inr ⟨hprime, hdvd, hsq'⟩)
      · rw [if_neg hcur]
        have hstruck : StruckBy k (k + 1) := by
          by_contra hns
          exact hcur ((IH (k + 1)).mpr ⟨hk1L, hns⟩)
        have hnp : ¬ (k + 1).Prime := by
          rcases hstruck with h | ⟨p, hpk, hpp, hpd, hps⟩
          · omega
          · intro hkp
            have := (Nat.prime_dvd_prime_iff_eq hpp hkp).mp hpd
            omega
        have hiff : StruckBy (k + 1) j ↔ StruckBy k j := by
          rw [struckBy_succ_iff]
          constructor
          · rintro (h | ⟨hp, -, -⟩)
            · exact h
            · exact absurd hp hnp
          · exact Or.inl
        rw [IH j, hiff]

lemma final_sieve (L : ℕ) (hL : 2 ≤ L) (j : ℕ) :
    ((sieveAfter L (Nat.sqrt L)).getD j false = true) ↔ (j ≤ L ∧ j.Prime) := by
  have h1 : 1 ≤ Nat.sqrt L := Nat.le_sqrt.mpr (by omega)
  rw [sieve_invariant L hL (Nat.sqrt L) h1 le_rfl j]
  constructor
  · rintro ⟨hjL, hns⟩
    refine ⟨hjL, ?_⟩
    by_contra hnp
    have hj2 : 2 ≤ j := by
      rcases Nat.lt_or_ge j 2 with h | h
      · exact absurd (Or.inl (by omega)) hns
      · exact h
    have hq := Nat.minFac_prime (show j ≠ 1 by omega)
    have hqd := Nat.minFac_dvd j
    have hqs : j.minFac ^ 2 ≤ j := Nat.minFac_sq_le_self (by omega) hnp
    refine hns (Or.inr ⟨j.minFac, ?_, hq, hqd, by nlinarith⟩)
    exact Nat.le_sqrt.mpr (by nlinarith)
  · rintro ⟨hjL, hp⟩
    refine ⟨hjL, ?_⟩
    rintro (h1' | ⟨p, hpk, hpp, hpd, hps⟩)
    · have := hp.two_le
      omega
    · have hpj := (Nat.prime_dvd_prime_iff_eq hpp hp).mp hpd
      subst hpj
      have := hp.two_le
      nlinarith

lemma python_find_primes_eq (limit : ℤ) (h : ¬ limit < 2) :
    python_find_primes limit
      = ((List.range (limit.toNat + 1)).filter
          fun i => (sieveAfter limit.toNat (Nat.sqrt limit.toNat)).getD i false).map
          fun i : ℕ => (i : ℤ) := by
  rw [python_find_primes, if_neg h]
  rfl

lemma python_find_primes_ten : python_find_primes 10 = [2, 3, 5, 7] := by
  have h : Nat.sqrt (Int.toNat 10) = 3 := by
    rw [show Int.toNat 10 = 3 * 3 + 1 from rfl]
    exact Nat.sqrt_add_eq 3 (by norm_num)
  simp only [python_find_primes, h]
  decide

/-- Claim C1: for every non-negative integer limit, `python_find_primes` returns
exactly the primes `≤ limit`, strictly ascending; `find_primes(0)` and
`find_primes(1)` are empty and `find_primes(10) = [2, 3, 5, 7]`. -/
theorem python_find_primes_correct (limit : ℤ) (hl : 0 ≤ limit) :
    (∀ q : ℤ, q ∈ python_find_primes limit ↔ 0 ≤ q ∧ q ≤ limit ∧ Nat.Prime q.toNat) ∧
    (python_find_primes limit).Pairwise (· < ·) ∧
    python_find_primes 0 = [] ∧ python_find_primes 1 = [] ∧
    python_find_primes 10 = [2, 3, 5, 7] := by
  refine ⟨fun q => ?_, ?_, by decide, by decide, python_find_primes_ten⟩
  · by_cases h2 : limit < 2
    · rw [show python_find_primes limit = [] from by rw [python_find_primes, if_pos h2]]
      simp only [List.not_mem_nil, false_iff]
      rintro ⟨hq0, hqL, hqp⟩
      have := hqp.two_le
      omega
    · have hL2 : 2 ≤ limit.toNat := by omega
      rw [python_find_primes_eq limit h2]
      simp only [List.mem_map, List.mem_filter, List.mem_range]
      constructor
      · rintro ⟨i, ⟨hir, hsv⟩, rfl⟩
        obtain ⟨hiL, hip⟩ := (final_sieve limit.toNat hL2 i).mp hsv
        refine ⟨Int.ofNat_nonneg i, ?_, by simpa using hip⟩
        omega
      · rintro ⟨hq0, hqL, hqp⟩
        refine ⟨q.toNat, ⟨by omega, ?_⟩, Int.toNat_of_nonneg hq0⟩
        exact (final_sieve limit.toNat hL2 q.toNat).mpr ⟨by omega, hqp⟩
  · by_cases h2 : limit < 2
    · rw [show python_find_primes limit = [] from by rw [python_find_primes, if_pos h2]]
      exact List.Pairwise.nil
    · rw [python_find_primes_eq limit h2]
      exact ((List.pairwise_lt_range _).filter _).map _
        (fun a b hab => by exact_mod_cast hab)

/-- witness for C1: the membership characterisation applied at
`limit = 10`, `q = 7`. -/
theorem python_find_primes_correct_witness :
    (0 : ℤ) ≤ 10 ∧
    ((7 : ℤ) ∈ python_find_primes 10
      ↔ 0 ≤ (7 : ℤ) ∧ (7 : ℤ) ≤ 10 ∧ Nat.Prime (7 : ℤ).toNat) :=
  ⟨by norm_num, (python_find_primes_correct 10 (by norm_num)).1 7⟩

end Ferrum
